import Mathlib

/-!
# Verification of `raml-to-markdown` (`src/libs/index.js`)

A shallow embedding of the single source file `src/libs/index.js` of the
`raml-to-markdown` package, together with theorems settling the frozen
claims about its specification.

Conventions of the embedding:
* JavaScript objects produced by the external RAML parser are modelled by
  the inductive `Node` (a document, resource, method, response or body
  node), with present-or-absent fields as `Option`s.
* `Array.prototype.sort(cmp)` is modelled by `jsSort`, a stable sort that
  places `a` before `b` whenever `cmp a b ≤ 0`.
* Throwing JS code is modelled with `Except JsErr`; promise rejection of
  `parse` is the `.error` case.
* The filesystem is modelled by `FS` (directories, files, and a
  chronological write log); paths are segment lists (`FsPath`).
* External collaborators are parameters: `rp` is `raml2obj.parse`,
  `nj` is `nunjucks.render`, `lc` is `String.prototype.localeCompare`.
* The functions of `src/libs/helper.js` (not part of the provided
  sources) are modelled from the spec; each such definition is marked
  `Modelled from the spec:` in its doc comment.
-/

/-- A property descriptor: the spec guarantees at least a `displayName`
(spec §3: "an ordered sequence of property descriptors, each with at
least a `displayName`"). -/
structure PropDesc where
  displayName : String
deriving DecidableEq

/-- The `items` sub-object a node may carry; it may or may not expose a
`properties` collection (`body.items.properties` in `src/libs/index.js`
line 245). -/
structure ItemsObj where
  properties : Option (List PropDesc)
deriving DecidableEq

/-- A parsed document / resource / method / response / body node, as
traversed by `parse` in `src/libs/index.js` (nesting keys `resources`,
`methods`, `responses`, `body`; data fields `displayName`, `uniqueId`,
`properties`, `items`). A field that the underlying JS object does not
have is `none`. -/
inductive Node : Type where
  | mk (displayName uniqueId : String)
       (properties : Option (List PropDesc))
       (items : Option ItemsObj)
       (resources methods responses body : Option (List Node)) : Node

def Node.displayName : Node → String
  | .mk d _ _ _ _ _ _ _ => d

def Node.uniqueId : Node → String
  | .mk _ u _ _ _ _ _ _ => u

def Node.properties : Node → Option (List PropDesc)
  | .mk _ _ ps _ _ _ _ _ => ps

def Node.items : Node → Option ItemsObj
  | .mk _ _ _ it _ _ _ _ => it

def Node.resources : Node → Option (List Node)
  | .mk _ _ _ _ rs _ _ _ => rs

def Node.methods : Node → Option (List Node)
  | .mk _ _ _ _ _ ms _ _ => ms

def Node.responses : Node → Option (List Node)
  | .mk _ _ _ _ _ _ rsp _ => rsp

def Node.body : Node → Option (List Node)
  | .mk _ _ _ _ _ _ _ bd => bd

/-- The JS assignment `item.resources = [ res ]` (lines 117 and 171):
replace the `resources` field, keeping every other field. -/
def Node.setResources : Node → Option (List Node) → Node
  | .mk d u ps it _ ms rsp bd, rs => .mk d u ps it rs ms rsp bd

/-! ## Model of `Array.prototype.sort(cmp)`

JavaScript's `sort` with a comparator is a stable sort that orders `a`
before `b` whenever the comparator is non-positive on `(a, b)`.  We model
it by a stable insertion sort parameterised by the Boolean test
`le a b`, standing for `cmp(a, b) <= 0`. -/

/-- Insert `a` into `l` directly before the first element `b` with
`le a b`. -/
def jsInsert (le : α → α → Bool) (a : α) : List α → List α
  | [] => [a]
  | b :: l => if le a b then a :: b :: l else b :: jsInsert le a l

/-- Stable sort modelling `Array.prototype.sort` with comparator-derived
test `le`. -/
def jsSort (le : α → α → Bool) : List α → List α
  | [] => []
  | a :: l => jsInsert le a (jsSort le l)

/-! ## The normalization traversal of `parse` (lines 241-249)

`parse` walks the flattened documents with
`helper.recursiveEach(relaxed, ['resources','methods','responses','body'], cb)`
and the callback `cb` sorts, in place, the node's `properties` collection
(or, when `properties` is absent, `items.properties`) by
`displayName.localeCompare`.  `localeCompare` is an external collaborator
and is modelled by a comparator parameter `lc : String → String → Int`. -/

/-- Error conditions surfaced as promise rejections of `parse`. -/
inductive JsErr : Type where
  /-- `listFiles` path does not exist (`NotFoundError`-kind). -/
  | notFound
  /-- A thrown `TypeError` (dereference of `undefined`). -/
  | typeError
  /-- A failure of the external RAML parser. -/
  | parseFail (code : Nat)
deriving DecidableEq

/-- The comparator-derived Boolean test for
`props.sort((a, b) => a.displayName.localeCompare(b.displayName))`
(line 248): `a` may stay before `b` iff the comparator is non-positive. -/
def propLe (lc : String → String → Int) (a b : PropDesc) : Bool :=
  lc a.displayName b.displayName ≤ 0

/-- The body of the per-node callback (lines 243-249):
`var props = body.properties || body.items.properties; if(props) props.sort(...)`.
When `properties` is absent and `items` is also absent, evaluating
`body.items.properties` dereferences `undefined` and throws a
`TypeError`.  Returns the updated `properties` and `items` fields. -/
def cbSort (lc : String → String → Int) (ps : Option (List PropDesc))
    (it : Option ItemsObj) :
    Except JsErr (Option (List PropDesc) × Option ItemsObj) :=
  match ps with
  | some l => .ok (some (jsSort (propLe lc) l), it)
  | none =>
    match it with
    | none => .error .typeError
    | some io =>
      match io.properties with
      | some l => .ok (none, some ⟨some (jsSort (propLe lc) l)⟩)
      | none => .ok (none, some io)

mutual

/-- Modelled from the spec: `helper.recursiveEach` (missing
`src/libs/helper.js`) visits a node, applies the callback, and then
recurses into each of the nesting-key collections `resources`,
`methods`, `responses`, `body` that the node carries (spec §4.3 and
§9: a generic tree-walk over the declared child-key list with a
per-node visitor).  This is the per-node part. -/
def normNode (lc : String → String → Int) : Node → Except JsErr Node
  | .mk d u ps it rs ms rsp bd =>
    match cbSort lc ps it with
    | .error e => .error e
    | .ok (ps', it') =>
      match normOpt lc rs with
      | .error e => .error e
      | .ok rs' =>
        match normOpt lc ms with
        | .error e => .error e
        | .ok ms' =>
          match normOpt lc rsp with
          | .error e => .error e
          | .ok rsp' =>
            match normOpt lc bd with
            | .error e => .error e
            | .ok bd' => .ok (.mk d u ps' it' rs' ms' rsp' bd')

/-- Recursion of `normNode` into an optional child collection: a missing
key is skipped. -/
def normOpt (lc : String → String → Int) : Option (List Node) → Except JsErr (Option (List Node))
  | none => .ok none
  | some l =>
    match normList lc l with
    | .error e => .error e
    | .ok l' => .ok (some l')

/-- Modelled from the spec: `helper.recursiveEach` over a collection of
nodes, in order. -/
def normList (lc : String → String → Int) : List Node → Except JsErr (List Node)
  | [] => .ok []
  | n :: t =>
    match normNode lc n with
    | .error e => .error e
    | .ok n' =>
      match normList lc t with
      | .error e => .error e
      | .ok t' => .ok (n' :: t')

end

mutual

/-- All nodes reachable from a node through the nesting keys
`resources`, `methods`, `responses`, `body`, the node itself included. -/
def subnodesN : Node → List Node
  | .mk d u ps it rs ms rsp bd =>
    .mk d u ps it rs ms rsp bd ::
      (subnodesO rs ++ subnodesO ms ++ subnodesO rsp ++ subnodesO bd)

/-- Reachable nodes of an optional child collection. -/
def subnodesO : Option (List Node) → List Node
  | none => []
  | some l => subnodesL l

/-- Reachable nodes of a collection of nodes. -/
def subnodesL : List Node → List Node
  | [] => []
  | n :: t => subnodesN n ++ subnodesL t

end

/-- The `properties` collection the callback selects at a node:
`properties` when present, otherwise `items.properties`
(`body.properties || body.items.properties`, line 245). -/
def selProps (n : Node) : Option (List PropDesc) :=
  match n.properties with
  | some l => some l
  | none =>
    match n.items with
    | none => none
    | some io => io.properties

/-- The sortedness predicate of claim C1: consecutive property
descriptors compare non-positively under the locale comparator. -/
def PropsSorted (lc : String → String → Int) (l : List PropDesc) : Prop :=
  l.Chain' (fun a b => lc a.displayName b.displayName ≤ 0)

/-! ## Filesystem model -/

/-- Paths as segment lists; `pathJs.join(dir, name)` is `dir ++ [name]`. -/
abbrev FsPath : Type := List String

/-- The proper ancestors of a path: every non-empty strict prefix. -/
def strictPrefixes (p : FsPath) : List FsPath :=
  (List.range p.length).filterMap fun i => if i = 0 then none else some (p.take i)

/-- Filesystem state: existing directories, files with their current
contents (later entries shadowed by earlier ones), and a chronological
log of all writes performed. -/
structure FS where
  dirs : List FsPath
  files : List (FsPath × String)
  log : List (FsPath × String)

/-- `fs.existsSync(p)`: some directory or file is at `p`. -/
def existsSync (fs : FS) (p : FsPath) : Bool :=
  fs.dirs.contains p || (fs.files.map (fun e => e.1)).contains p

/-- Modelled from the spec: `helper.mkdirp` (missing
`src/libs/helper.js`) creates the missing parent directories of the
target path recursively (spec §4.4: "if a target path's parent
directory does not already exist, create it (recursively) before
writing"). -/
def mkdirp (fs : FS) (p : FsPath) : FS :=
  { fs with dirs := strictPrefixes p ++ fs.dirs }

/-- `fs.writeFileSync(p, c)`: unconditionally (over)write the file. -/
def writeFileSync (fs : FS) (p : FsPath) (c : String) : FS :=
  { fs with files := (p, c) :: fs.files, log := fs.log ++ [(p, c)] }

/-- The directory-creation step guarding every write of `render`:
`if(!fs.existsSync(path)) helper.mkdirp(path)` (lines 106-107, 125-126,
160-161, 179-180). -/
def preWrite (fs : FS) (p : FsPath) : FS :=
  if existsSync fs p then fs else mkdirp fs p

/-- One complete file write as performed by every `File` output branch:
ensure directories, then `writeFileSync` (lines 106-109, 125-128,
160-163, 179-182). -/
def writeOut (fs : FS) (p : FsPath) (c : String) : FS :=
  writeFileSync (preWrite fs p) p c

/-- Current content of the file at `p`, if any. -/
def lookupFile (fs : FS) (p : FsPath) : Option String :=
  (fs.files.find? (fun e => e.1 == p)).map (fun e => e.2)

/-- Well-formedness of a filesystem: the ancestors of every file and of
every directory exist as directories. -/
def FS.wf (fs : FS) : Prop :=
  (∀ q ∈ fs.files, ∀ r ∈ strictPrefixes q.1, r ∈ fs.dirs) ∧
  (∀ d ∈ fs.dirs, ∀ r ∈ strictPrefixes d, r ∈ fs.dirs)

/-! ## The `parse` pipeline (lines 212-253) -/

/-- The parent directory of a path. -/
def parentDir (p : FsPath) : FsPath := p.dropLast

/-- Modelled from the spec: `helper.listFiles(path, recursive, filter)`
(missing `src/libs/helper.js`; spec §4.1).  A file path yields itself
when the filter accepts it; a directory yields its matching file
entries, descending into subdirectories only when `recursive`; a
non-existent path fails with a `NotFoundError`-kind condition. -/
def listFiles (fsys : FS) (recursive : Bool) (filt : FsPath → Bool) (p : FsPath) :
    Except JsErr (List FsPath) :=
  if (fsys.files.map (fun e => e.1)).contains p then
    .ok (if filt p then [p] else [])
  else if fsys.dirs.contains p then
    .ok ((fsys.files.map (fun e => e.1)).filter fun q =>
      (if recursive then p.isPrefixOf q && !(q == p) else parentDir q == p) && filt q)
  else .error .notFound

/-- The default `input.fileFilter` of `DefaultConfig` (line 58):
`new RegExp('\.raml$')`.  In a JavaScript string literal the escape
sequence `\.` denotes a plain `.`, so the constructed regular expression
is `/.raml$/`, whose unescaped dot matches any character except a line
terminator.  `parse` (lines 224-225) wraps the RegExp object into the
predicate `path => fileFilter.test(path)`; this definition is that
predicate: the string matches iff it ends in `raml` preceded by one
character that is not a line terminator. -/
def defaultFileFilterTest (s : String) : Bool :=
  match s.data.reverse with
  | 'l' :: 'm' :: 'a' :: 'r' :: c :: _ =>
    !(c == '\n' || c == '\r' || c == '\u2028' || c == '\u2029')
  | _ => false

/-- The slice of the configuration that `parse` consumes, with the
polymorphic file filter already normalized into a predicate (lines
222-225). -/
structure ParseCfg where
  paths : List FsPath
  recursive : Bool
  fileFilter : FsPath → Bool
  contentFilter : Option (Node → Node)

/-- `Promise.all(helper.map(xs, f))`: apply `f` to every element in
order, rejecting with the first failure (fail-fast aggregation). -/
def allMap (f : α → Except JsErr β) : List α → Except JsErr (List β)
  | [] => .ok []
  | a :: t =>
    match f a with
    | .error e => .error e
    | .ok b =>
      match allMap f t with
      | .error e => .error e
      | .ok bs => .ok (b :: bs)

/-- The per-input-path work of `parse` (lines 218-234): list the
matching files, then parse each with the external RAML parser `rp`;
a thrown listing error becomes a rejection. -/
def parsePath (fsys : FS) (rp : FsPath → Except JsErr Node) (pcfg : ParseCfg)
    (p : FsPath) : Except JsErr (List Node) :=
  match listFiles fsys pcfg.recursive pcfg.fileFilter p with
  | .error e => .error e
  | .ok fls => allMap rp fls

/-- Lines 238-239: flatten the per-path results (`helper.unwindArray`,
modelled from spec §4.3 as order-preserving flattening of the
sequence-of-sequences) and apply the optional input content filter to
every flattened document. -/
def parseDocs (pcfg : ParseCfg) (items : List (List Node)) : List Node :=
  match pcfg.contentFilter with
  | some f => items.flatten.map f
  | none => items.flatten

/-- The model of `module.exports.parse` (lines 212-253): gather the
per-path results (`Promise.all`), flatten and filter them
(`parseDocs`), then run the normalization traversal. -/
def parseModel (fsys : FS) (rp : FsPath → Except JsErr Node) (pcfg : ParseCfg)
    (lc : String → String → Int) : Except JsErr (List Node) :=
  match allMap (parsePath fsys rp pcfg) pcfg.paths with
  | .error e => .error e
  | .ok items => normList lc (parseDocs pcfg items)

/-! ## The `render` dispatcher (lines 79-205)

`render` parses, then branches on the output type and the file-splitting
strategy.  The model below is the continuation applied to the parsed
documents (`files`); `nj` stands for `nunjucks.render`, `tmpl` for the
resolved template file, `filt` for the applied output content filter.
Its result is `(returned string, stdout output, filesystem, documents)`,
the last component exposing the in-place mutation of the document
objects. -/

/-- Built-in output types (lines 14-21). -/
inductive OutputType : Type where
  | ReturnOnly
  | StdOut
  | File
deriving DecidableEq

/-- Built-in file-splitting strategies (lines 27-34). -/
inductive FileSplitting : Type where
  | AllInOne
  | OnePerResource
  | OnePerResourceVersioning
deriving DecidableEq

/-- The output content filter policy
`(contentFilter && contentFilter(rendered)) || rendered` (lines 104,
121, 156, 175): with no filter, or when the filter returns a falsy
value (modelled by `none`), the original rendered text is kept;
otherwise the filter's (truthy) result replaces it. -/
def applyFilter (cf : Option (String → Option String)) (s : String) : String :=
  match cf with
  | none => s
  | some f => (f s).getD s

/-- The joined rendering of all documents (lines 101-105 and 190-195):
render each document and join with `"\n\n\n"` (two blank lines). -/
def joinRendered (nj : FsPath → Node → String) (tmpl : FsPath)
    (filt : String → String) (files : List Node) : String :=
  String.intercalate "\n\n\n" (files.map fun it => filt (nj tmpl it))

/-- The `OnePerResource` inner loop (lines 115-129): for each resource
of the document's captured resource array, assign
`item.resources = [ res ]`, render, and write
`<displayName><extension>` into the output directory.  The document
accumulator carries the in-place mutation. -/
def perResLoop (nj : FsPath → Node → String) (tmpl : FsPath) (filt : String → String)
    (opath : FsPath) (ext : String) : List Node → FS → Node → FS × Node
  | [], fs, it => (fs, it)
  | res :: rest, fs, it =>
    let it1 := it.setResources (some [res])
    let r := filt (nj tmpl it1)
    perResLoop nj tmpl filt opath ext rest
      (writeOut fs (opath ++ [res.displayName ++ ext]) r) it1

/-- The `OnePerResource` per-document body (lines 113-130). -/
def onePerResourceDoc (nj : FsPath → Node → String) (tmpl : FsPath)
    (filt : String → String) (opath : FsPath) (ext : String) (fs : FS) (it : Node) :
    FS × Node :=
  perResLoop nj tmpl filt opath ext (it.resources.getD []) fs it

/-- The comparand `displayName[0]` of the versioning sort (lines
142-148): the first character of the display name, absent for the empty
string. -/
def firstChar (s : String) : Option Char :=
  s.data.head?

/-- JS `<` on two optional characters: comparisons against `undefined`
are false. -/
def optCharLt : Option Char → Option Char → Bool
  | some a, some b => a < b
  | _, _ => false

/-- The comparator of the versioning sort (lines 142-148): `-1`, `1` or
`0` by comparing the first characters of the display names. -/
def fcCmp (a b : Node) : Int :=
  if optCharLt (firstChar a.displayName) (firstChar b.displayName) then -1
  else if optCharLt (firstChar b.displayName) (firstChar a.displayName) then 1
  else 0

/-- The Boolean test derived from `fcCmp` for `jsSort`. -/
def fcLe (a b : Node) : Bool := fcCmp a b ≤ 0

/-- The per-version-group sort (lines 137-149): skip version groups with
a missing or empty nested resource collection, otherwise sort the
nested resources in place by first character of `displayName`. -/
def sortVersionNode (v : Node) : Node :=
  match v.resources with
  | none => v
  | some l => if l.isEmpty then v else v.setResources (some (jsSort fcLe l))

/-- The "create sorted contents page" phase of the versioning branch
(lines 136-149), applied to a document. -/
def sortVersions (it : Node) : Node :=
  it.setResources (some ((it.resources.getD []).map sortVersionNode))

/-- The home-page write of the versioning branch (lines 151-164): only
when a home template is configured, render the document through it and
write `Home<extension>`. -/
def homeWrite (nj : FsPath → Node → String) (filt : String → String) (opath : FsPath)
    (ext : String) (home : Option FsPath) (fs : FS) (it : Node) : FS :=
  match home with
  | none => fs
  | some h => writeOut fs (opath ++ ["Home" ++ ext]) (filt (nj h it))

/-- The versioning endpoint loop (lines 168-183): for each endpoint
resource of a version group, assign `item.resources = [ res ]`, render,
and write `<displayName>_<version uniqueId><extension>`. -/
def epLoop (nj : FsPath → Node → String) (tmpl : FsPath) (filt : String → String)
    (opath : FsPath) (ext : String) (vid : String) : List Node → FS → Node → FS × Node
  | [], fs, it => (fs, it)
  | res :: rest, fs, it =>
    let it1 := it.setResources (some [res])
    let r := filt (nj tmpl it1)
    epLoop nj tmpl filt opath ext vid rest
      (writeOut fs (opath ++ [res.displayName ++ "_" ++ vid ++ ext]) r) it1

/-- The versioning outer loop over version groups (lines 166-184). -/
def verLoop (nj : FsPath → Node → String) (tmpl : FsPath) (filt : String → String)
    (opath : FsPath) (ext : String) : List Node → FS → Node → FS × Node
  | [], fs, it => (fs, it)
  | v :: rest, fs, it =>
    let r1 := epLoop nj tmpl filt opath ext v.uniqueId (v.resources.getD []) fs it
    verLoop nj tmpl filt opath ext rest r1.1 r1.2

/-- The write phase of the versioning branch: home page, then one file
per endpoint per version group, on an already version-sorted document. -/
def versioningWrites (nj : FsPath → Node → String) (tmpl : FsPath)
    (filt : String → String) (opath : FsPath) (ext : String) (home : Option FsPath)
    (fs : FS) (it : Node) : FS × Node :=
  verLoop nj tmpl filt opath ext (it.resources.getD [])
    (homeWrite nj filt opath ext home fs it) it

/-- The `OnePerResourceVersioning` per-document body (lines 134-185):
the version sort happens before any file of the document is written. -/
def versioningDoc (nj : FsPath → Node → String) (tmpl : FsPath)
    (filt : String → String) (opath : FsPath) (ext : String) (home : Option FsPath)
    (fs : FS) (it : Node) : FS × Node :=
  versioningWrites nj tmpl filt opath ext home fs (sortVersions it)

/-- `helper.each(files, item => ...)` over the documents, threading the
filesystem and collecting the (mutated) documents. -/
def docsLoop (step : FS → Node → FS × Node) : List Node → FS → FS × List Node
  | [], fs => (fs, [])
  | d :: rest, fs =>
    let r1 := step fs d
    let r2 := docsLoop step rest r1.1
    (r2.1, r1.2 :: r2.2)

/-- The dispatcher body of `render` (lines 92-204), applied to the
parsed documents.  Result components: the value the promise resolves to,
the text written to stdout, the final filesystem, and the document
objects after any in-place mutation. -/
def renderBody (nj : FsPath → Node → String) (tmpl : FsPath) (filt : String → String)
    (otype : OutputType) (osplit : FileSplitting) (opath : FsPath) (ext : String)
    (home : Option FsPath) (fs : FS) (files : List Node) :
    Option String × String × FS × List Node :=
  match otype with
  | .File =>
    match osplit with
    | .AllInOne =>
      (none, "", writeOut fs opath (joinRendered nj tmpl filt files), files)
    | .OnePerResource =>
      let r := docsLoop (onePerResourceDoc nj tmpl filt opath ext) files fs
      (none, "", r.1, r.2)
    | .OnePerResourceVersioning =>
      let r := docsLoop (versioningDoc nj tmpl filt opath ext home) files fs
      (none, "", r.1, r.2)
  | .ReturnOnly => (some (joinRendered nj tmpl filt files), "", fs, files)
  | .StdOut => (none, joinRendered nj tmpl filt files, fs, files)

/-- The dispatcher with the configured output content filter applied
through the replace-if-truthy policy at every invocation site. -/
def renderCore (nj : FsPath → Node → String) (tmpl : FsPath)
    (cf : Option (String → Option String)) (otype : OutputType)
    (osplit : FileSplitting) (opath : FsPath) (ext : String) (home : Option FsPath)
    (fs : FS) (files : List Node) : Option String × String × FS × List Node :=
  renderBody nj tmpl (applyFilter cf) otype osplit opath ext home fs files

/-! ## General lemmas -/

@[simp] theorem Node.setResources_resources (n : Node) (rs : Option (List Node)) :
    (n.setResources rs).resources = rs := by
  cases n; rfl

@[simp] theorem Node.setResources_setResources (n : Node) (rs rs' : Option (List Node)) :
    (n.setResources rs).setResources rs' = n.setResources rs' := by
  cases n; rfl

@[simp] theorem Node.setResources_displayName (n : Node) (rs : Option (List Node)) :
    (n.setResources rs).displayName = n.displayName := by
  cases n; rfl

@[simp] theorem Node.setResources_uniqueId (n : Node) (rs : Option (List Node)) :
    (n.setResources rs).uniqueId = n.uniqueId := by
  cases n; rfl

theorem jsInsert_perm (le : α → α → Bool) (a : α) (l : List α) :
    (jsInsert le a l).Perm (a :: l) := by
  induction l with
  | nil => simp [jsInsert]
  | cons b t ih =>
      by_cases h : le a b
      · simp [jsInsert, h]
      · simp only [jsInsert, h, if_neg, Bool.false_eq_true, if_false]
        exact (ih.cons b).trans (List.Perm.swap a b t)

theorem jsSort_perm (le : α → α → Bool) (l : List α) :
    (jsSort le l).Perm l := by
  induction l with
  | nil => simp [jsSort]
  | cons a t ih =>
      exact (jsInsert_perm le a (jsSort le t)).trans (ih.cons a)

theorem jsInsert_chain' (le : α → α → Bool)
    (htot : ∀ a b, le a b = true ∨ le b a = true) (a : α) (l : List α)
    (h : l.Chain' (fun x y => le x y = true)) :
    (jsInsert le a l).Chain' (fun x y => le x y = true) := by
  induction l with
  | nil => simp [jsInsert]
  | cons b t ih =>
      by_cases hab : le a b
      · simpa [jsInsert, hab] using h
      · have hba : le b a = true := (htot a b).resolve_left (by simpa using hab)
        rw [List.chain'_cons'] at h
        simp only [jsInsert, hab, Bool.false_eq_true, if_false]
        rw [List.chain'_cons']
        refine ⟨?_, ih h.2⟩
        intro y hy
        cases t with
        | nil =>
            simp only [jsInsert, List.head?_cons, Option.mem_def, Option.some.injEq] at hy
            rw [← hy]; exact hba
        | cons c t' =>
            by_cases hac : le a c
            · simp only [jsInsert, hac, if_true, List.head?_cons,
                Option.mem_def, Option.some.injEq] at hy
              simpa [← hy] using hba
            · simp only [jsInsert, hac, Bool.false_eq_true, if_false,
                List.head?_cons, Option.mem_def, Option.some.injEq] at hy
              have h1 := h.1 c (by simp)
              simpa [← hy] using h1

theorem jsSort_chain' (le : α → α → Bool)
    (htot : ∀ a b, le a b = true ∨ le b a = true) (l : List α) :
    (jsSort le l).Chain' (fun x y => le x y = true) := by
  induction l with
  | nil => simp [jsSort]
  | cons a t ih => exact jsInsert_chain' le htot a (jsSort le t) ih

/-- Stability of `jsInsert`, phrased through key-filtering: if every
element sharing `a`'s key satisfies `le a ·`, then filtering any key
class of `jsInsert le a l` puts `a` (when it belongs to the class) in
front of the class of `l`, preserving the relative order of `l`. -/
theorem jsInsert_filter_key {β : Type} [DecidableEq β] (le : α → α → Bool)
    (key : α → β) (a : α) (l : List α)
    (heq : ∀ b, key b = key a → le a b = true) (k : β) :
    (jsInsert le a l).filter (fun x => key x = k) =
      ((if key a = k then [a] else []) ++ l.filter (fun x => key x = k)) := by
  induction l with
  | nil =>
      by_cases hk : key a = k <;> simp [jsInsert, hk, List.filter]
  | cons b t ih =>
      by_cases hab : le a b
      · by_cases hk : key a = k <;> by_cases hbk : key b = k <;>
          simp [jsInsert, hab, hk, hbk, List.filter_cons]
      · have hkey : key b ≠ key a := by
          intro hc
          exact hab (heq b hc)
        simp only [jsInsert, hab, Bool.false_eq_true, if_false, List.filter_cons]
        by_cases hk : key a = k
        · have hbk : ¬ (key b = k) := fun hc => hkey (hc.trans hk.symm)
          simp [hk, hbk, ih]
        · by_cases hbk : key b = k <;> simp [hbk, hk, ih]

/-- Stability of `jsSort`: each key class is preserved as a subsequence
(in particular, elements whose keys tie keep their relative order),
provided tying keys make the comparator report "not greater" both ways. -/
theorem jsSort_filter_key {β : Type} [DecidableEq β] (le : α → α → Bool)
    (key : α → β)
    (heq : ∀ a b, key b = key a → le a b = true) (l : List α) (k : β) :
    (jsSort le l).filter (fun x => key x = k) = l.filter (fun x => key x = k) := by
  induction l with
  | nil => simp [jsSort]
  | cons a t ih =>
      rw [jsSort, jsInsert_filter_key le key a (jsSort le t) (fun b hb => heq a b hb) k, ih,
        List.filter_cons]
      by_cases hk : key a = k <;> simp [hk]

theorem mem_subnodesL (m : Node) (l : List Node) :
    m ∈ subnodesL l ↔ ∃ n ∈ l, m ∈ subnodesN n := by
  induction l with
  | nil => simp [subnodesL]
  | cons n t ih => simp [subnodesL, ih]

/-- Totality of the Boolean test derived from a consistent comparator. -/
theorem propLe_total (lc : String → String → Int)
    (htot : ∀ a b : String, lc a b ≤ 0 ∨ lc b a ≤ 0) :
    ∀ a b : PropDesc, propLe lc a b = true ∨ propLe lc b a = true := by
  intro a b
  rcases htot a.displayName b.displayName with h | h
  · exact Or.inl (by simpa [propLe] using h)
  · exact Or.inr (by simpa [propLe] using h)

theorem jsSort_propsSorted (lc : String → String → Int)
    (htot : ∀ a b : String, lc a b ≤ 0 ∨ lc b a ≤ 0) (l : List PropDesc) :
    PropsSorted lc (jsSort (propLe lc) l) := by
  have h := jsSort_chain' (propLe lc) (propLe_total lc htot) l
  exact h.imp (fun a b hab => of_decide_eq_true hab)


mutual

theorem normNode_sorted (lc : String → String → Int)
    (htot : ∀ a b : String, lc a b ≤ 0 ∨ lc b a ≤ 0) (n n' : Node)
    (h : normNode lc n = .ok n') :
    ∀ m ∈ subnodesN n', ∀ l, selProps m = some l → PropsSorted lc l := by
  cases n with
  | mk d u ps it rs ms rsp bd =>
    rw [normNode] at h
    cases hcb : cbSort lc ps it with
    | error e => rw [hcb] at h; exact absurd h (by simp)
    | ok v =>
      obtain ⟨ps', it'⟩ := v
      rw [hcb] at h
      cases hrs : normOpt lc rs with
      | error e => rw [hrs] at h; exact absurd h (by simp)
      | ok rs' =>
        rw [hrs] at h
        cases hms : normOpt lc ms with
        | error e => rw [hms] at h; exact absurd h (by simp)
        | ok ms' =>
          rw [hms] at h
          cases hrsp : normOpt lc rsp with
          | error e => rw [hrsp] at h; exact absurd h (by simp)
          | ok rsp' =>
            rw [hrsp] at h
            cases hbd : normOpt lc bd with
            | error e => rw [hbd] at h; exact absurd h (by simp)
            | ok bd' =>
              rw [hbd] at h
              simp only [Except.ok.injEq] at h
              subst h
              intro m hm
              simp only [subnodesN, List.mem_cons, List.mem_append] at hm
              rcases hm with hm | (((hm | hm) | hm) | hm)
              · subst hm
                intro l hl
                simp only [selProps, Node.properties, Node.items] at hl
                cases ps with
                | some l0 =>
                  simp only [cbSort, Except.ok.injEq, Prod.mk.injEq] at hcb
                  rw [← hcb.1] at hl
                  simp only [Option.some.injEq] at hl
                  subst hl
                  exact jsSort_propsSorted lc htot l0
                | none =>
                  cases it with
                  | none => simp [cbSort] at hcb
                  | some io =>
                    cases hio : io.properties with
                    | some l0 =>
                      simp only [cbSort, hio, Except.ok.injEq, Prod.mk.injEq] at hcb
                      rw [← hcb.1, ← hcb.2] at hl
                      simp only [Option.some.injEq] at hl
                      subst hl
                      exact jsSort_propsSorted lc htot l0
                    | none =>
                      simp only [cbSort, hio, Except.ok.injEq, Prod.mk.injEq] at hcb
                      rw [← hcb.1, ← hcb.2] at hl
                      simp [hio] at hl
              · exact normOpt_sorted lc htot rs rs' hrs m hm
              · exact normOpt_sorted lc htot ms ms' hms m hm
              · exact normOpt_sorted lc htot rsp rsp' hrsp m hm
              · exact normOpt_sorted lc htot bd bd' hbd m hm
termination_by sizeOf n

theorem normOpt_sorted (lc : String → String → Int)
    (htot : ∀ a b : String, lc a b ≤ 0 ∨ lc b a ≤ 0) (o : Option (List Node))
    (o' : Option (List Node)) (h : normOpt lc o = .ok o') :
    ∀ m ∈ subnodesO o', ∀ l, selProps m = some l → PropsSorted lc l := by
  cases o with
  | none =>
    rw [normOpt] at h
    simp only [Except.ok.injEq] at h
    subst h
    intro m hm
    simp [subnodesO] at hm
  | some l0 =>
    rw [normOpt] at h
    cases hl : normList lc l0 with
    | error e => rw [hl] at h; exact absurd h (by simp)
    | ok l' =>
      rw [hl] at h
      simp only [Except.ok.injEq] at h
      subst h
      intro m hm
      rw [subnodesO] at hm
      exact normList_sorted lc htot l0 l' hl m hm
termination_by sizeOf o

theorem normList_sorted (lc : String → String → Int)
    (htot : ∀ a b : String, lc a b ≤ 0 ∨ lc b a ≤ 0) (ns ns' : List Node)
    (h : normList lc ns = .ok ns') :
    ∀ m ∈ subnodesL ns', ∀ l, selProps m = some l → PropsSorted lc l := by
  cases ns with
  | nil =>
    rw [normList] at h
    simp only [Except.ok.injEq] at h
    subst h
    intro m hm
    simp [subnodesL] at hm
  | cons n t =>
    rw [normList] at h
    cases hn : normNode lc n with
    | error e => rw [hn] at h; exact absurd h (by simp)
    | ok n' =>
      rw [hn] at h
      cases ht : normList lc t with
      | error e => rw [ht] at h; exact absurd h (by simp)
      | ok t' =>
        rw [ht] at h
        simp only [Except.ok.injEq] at h
        subst h
        intro m hm
        rw [subnodesL] at hm
        rcases List.mem_append.mp hm with hm | hm
        · exact normNode_sorted lc htot n n' hn m hm
        · exact normList_sorted lc htot t t' ht m hm
termination_by sizeOf ns

end

/-! ## Claim theorems -/

/-- C1: for every document sequence returned (resolved) by `parse`,
every node reachable through the nesting keys `resources`, `methods`,
`responses`, `body` — the top-level documents included — that carries a
`properties` collection, directly or (when `properties` is absent)
under `items`, has that collection sorted non-decreasing by
`displayName` under the locale comparator `lc`, `lc` being consistent
(total as a preorder test). -/
theorem parse_properties_sorted (fsys : FS) (rp : FsPath → Except JsErr Node)
    (pcfg : ParseCfg) (lc : String → String → Int)
    (htot : ∀ a b : String, lc a b ≤ 0 ∨ lc b a ≤ 0) (docs : List Node)
    (hok : parseModel fsys rp pcfg lc = .ok docs) :
    ∀ d ∈ docs, ∀ m ∈ subnodesN d, ∀ l, selProps m = some l → PropsSorted lc l := by
  unfold parseModel at hok
  cases hm : allMap (parsePath fsys rp pcfg) pcfg.paths with
  | error e => rw [hm] at hok; exact absurd hok (by simp)
  | ok items =>
    rw [hm] at hok
    intro d hd m hmm l hl
    refine normList_sorted lc htot _ docs hok m ?_ l hl
    exact (mem_subnodesL m docs).mpr ⟨d, hd, hmm⟩

/-- Witness for C1 at a concrete input: one file, parsed to one document
whose `properties` collection is initially out of order; `parse`
resolves and the collection is sorted. -/
theorem parse_properties_sorted_witness :
    (∀ a b : String, (fun _ _ : String => (0 : Int)) a b ≤ 0 ∨
      (fun _ _ : String => (0 : Int)) b a ≤ 0) ∧
    parseModel ⟨[], [(["a"], "")], []⟩
      (fun _ => .ok (.mk "Doc" "" (some [⟨"b"⟩, ⟨"a"⟩]) none none none none none))
      ⟨[["a"]], false, fun _ => true, none⟩ (fun _ _ => 0) =
      .ok [.mk "Doc" "" (some [⟨"b"⟩, ⟨"a"⟩]) none none none none none] ∧
    (∀ d ∈ [Node.mk "Doc" "" (some [⟨"b"⟩, ⟨"a"⟩]) none none none none none],
      ∀ m ∈ subnodesN d, ∀ l, selProps m = some l →
        PropsSorted (fun _ _ => 0) l) := by
  have hok : parseModel ⟨[], [(["a"], "")], []⟩
      (fun _ => .ok (.mk "Doc" "" (some [⟨"b"⟩, ⟨"a"⟩]) none none none none none))
      ⟨[["a"]], false, fun _ => true, none⟩ (fun _ _ => 0) =
      .ok [.mk "Doc" "" (some [⟨"b"⟩, ⟨"a"⟩]) none none none none none] := by
    simp [parseModel, parsePath, parseDocs, allMap, listFiles, normList, normNode,
      normOpt, cbSort, jsSort, jsInsert, propLe]
  exact ⟨fun a b => Or.inl (by simp), hok,
    parse_properties_sorted _ _ _ _ (fun a b => Or.inl (by simp)) _ hok⟩

/-- C2 (code bug evidence): a visited node with neither a `properties`
field nor an `items` field makes the per-node callback dereference the
`undefined` value of `items` (`body.items.properties`, line 245), so it
throws a `TypeError` and `parse` rejects instead of resolving. -/
theorem parse_missing_items_throws :
    parseModel ⟨[], [(["a"], "")], []⟩
      (fun _ => .ok (.mk "Doc" "" none none none none none none))
      ⟨[["a"]], false, fun _ => true, none⟩ (fun _ _ => 0) = .error .typeError := by
  simp [parseModel, parsePath, parseDocs, allMap, listFiles, normList, normNode,
    cbSort]

/-- C3: the replace-if-truthy output content filter policy.  Part one:
whenever the configured filter returns a falsy value on a rendered
string, the original unfiltered text is used, never the falsy value.
Part two: the policy holds at every invocation site of the dispatcher —
an always-falsy filter leaves every branch (ReturnOnly, StdOut,
File/AllInOne, OnePerResource, OnePerResourceVersioning with its home
page) exactly as if no filter were configured. -/
theorem contentFilter_falsy_keeps_original
    (f : String → Option String) (hf : ∀ s, f s = none) :
    (∀ s, applyFilter (some f) s = s) ∧
    (∀ (nj : FsPath → Node → String) (tmpl : FsPath) (otype : OutputType)
      (osplit : FileSplitting) (opath : FsPath) (ext : String)
      (home : Option FsPath) (fs : FS) (files : List Node),
      renderCore nj tmpl (some f) otype osplit opath ext home fs files =
        renderCore nj tmpl none otype osplit opath ext home fs files) := by
  have h1 : ∀ s, applyFilter (some f) s = s := by
    intro s
    simp [applyFilter, hf]
  refine ⟨h1, ?_⟩
  intro nj tmpl otype osplit opath ext home fs files
  unfold renderCore
  rw [show applyFilter (some f) = applyFilter none from
    funext fun s => (h1 s).trans (rfl : s = applyFilter none s)]

/-- Witness for C3: a concrete always-falsy filter at a concrete
dispatcher configuration. -/
theorem contentFilter_falsy_keeps_original_witness :
    (∀ s : String, (fun _ : String => (none : Option String)) s = none) ∧
    applyFilter (some fun _ : String => (none : Option String)) "text" = "text" ∧
    renderCore (fun _ _ => "out") ["t"] (some fun _ : String => (none : Option String))
        .File .OnePerResourceVersioning ["o"] ".md" (some ["h"]) ⟨[], [], []⟩
        [.mk "Doc" "" none none (some []) none none none] =
      renderCore (fun _ _ => "out") ["t"] none
        .File .OnePerResourceVersioning ["o"] ".md" (some ["h"]) ⟨[], [], []⟩
        [.mk "Doc" "" none none (some []) none none none] := by
  refine ⟨fun s => rfl, ?_, ?_⟩
  · exact (contentFilter_falsy_keeps_original _ (fun s => rfl)).1 "text"
  · exact (contentFilter_falsy_keeps_original _ (fun s => rfl)).2 _ _ _ _ _ _ _ _ _

/-- C4 (code bug evidence): the default `input.fileFilter` accepts the
five-character path `"xraml"`, which does not end with the suffix
`".raml"` (and, as intended, also accepts `"a.raml"`): the unescaped dot
of the RegExp `/.raml$/` built from the literal `'\.raml$'` matches any
character, not only `'.'`. -/
theorem defaultFileFilter_accepts_xraml :
    defaultFileFilterTest "xraml" = true ∧
    (".raml".data.isSuffixOf "xraml".data) = false ∧
    defaultFileFilterTest "a.raml" = true := by
  refine ⟨by decide, by decide, by decide⟩

/-- C7: with output type ReturnOnly, `render` resolves to the single
string joining the per-document rendered texts (each post-processed by
the output content filter under the replace-if-truthy policy) with the
exact separator `"\n\n\n"`, writes no file and prints nothing; with
File/AllInOne the identically joined string is instead written to the
one configured output file. -/
theorem returnOnly_and_allInOne_join (nj : FsPath → Node → String) (tmpl : FsPath)
    (cf : Option (String → Option String)) (osplit : FileSplitting) (opath : FsPath)
    (ext : String) (home : Option FsPath) (fs : FS) (files : List Node) :
    renderCore nj tmpl cf .ReturnOnly osplit opath ext home fs files =
      (some (String.intercalate "\n\n\n"
        (files.map fun it => applyFilter cf (nj tmpl it))), "", fs, files) ∧
    renderCore nj tmpl cf .File .AllInOne opath ext home fs files =
      (none, "", writeOut fs opath (String.intercalate "\n\n\n"
        (files.map fun it => applyFilter cf (nj tmpl it))), files) := by
  exact ⟨rfl, rfl⟩

theorem listFiles_notFound (fsys : FS) (r : Bool) (filt : FsPath → Bool) (p : FsPath)
    (h : existsSync fsys p = false) :
    listFiles fsys r filt p = .error .notFound := by
  rw [existsSync, Bool.or_eq_false_iff] at h
  have h1 : p ∉ fsys.dirs := by simpa using h.1
  have h2 : p ∉ List.map (fun e => e.1) fsys.files := by simpa using h.2
  have h3 : ∀ x : String, (p, x) ∉ fsys.files :=
    fun x hx => h2 (List.mem_map.mpr ⟨(p, x), hx, rfl⟩)
  simp [listFiles, h1, h3]

theorem listFiles_error_eq (fsys : FS) (r : Bool) (filt : FsPath → Bool) (p : FsPath)
    (e : JsErr) (h : listFiles fsys r filt p = .error e) : e = .notFound := by
  rw [listFiles] at h
  by_cases h1 : ((fsys.files.map (fun x => x.1)).contains p) = true
  · rw [if_pos h1] at h; exact absurd h (by simp)
  · rw [if_neg h1] at h
    by_cases h2 : (fsys.dirs.contains p) = true
    · rw [if_pos h2] at h; exact absurd h (by simp)
    · rw [if_neg h2] at h
      simpa using h.symm

theorem allMap_error_of_mem (f : α → Except JsErr β) (l : List α) (x : α)
    (hx : x ∈ l) (e : JsErr) (hfx : f x = .error e) :
    ∃ e', allMap f l = .error e' := by
  induction l with
  | nil => cases hx
  | cons a t ih =>
    rw [allMap]
    cases ha : f a with
    | error e0 => exact ⟨e0, rfl⟩
    | ok b =>
      rcases List.mem_cons.mp hx with hx | hx
      · subst hx; rw [ha] at hfx; cases hfx
      · obtain ⟨e', he'⟩ := ih hx
        exact ⟨e', by rw [he']⟩

theorem allMap_notFound (f : α → Except JsErr β) (l : List α)
    (hall : ∀ y ∈ l, (∃ b, f y = .ok b) ∨ f y = .error .notFound)
    (hx : ∃ x ∈ l, f x = .error .notFound) :
    allMap f l = .error .notFound := by
  induction l with
  | nil => obtain ⟨x, hx, _⟩ := hx; cases hx
  | cons a t ih =>
    rw [allMap]
    cases ha : f a with
    | error e0 =>
      rcases hall a (List.mem_cons_self a t) with ⟨b, hb⟩ | hb
      · rw [ha] at hb; cases hb
      · rw [ha] at hb
        simp only [Except.error.injEq] at hb
        rw [hb]
    | ok b =>
      obtain ⟨x, hxm, hxe⟩ := hx
      have hxt : x ∈ t := by
        rcases List.mem_cons.mp hxm with h | h
        · subst h; rw [ha] at hxe; cases hxe
        · exact h
      rw [ih (fun y hy => hall y (List.mem_cons_of_mem a hy)) ⟨x, hxt, hxe⟩]

theorem allMap_ok_of_total (f : α → Except JsErr β) (l : List α)
    (h : ∀ y ∈ l, ∃ b, f y = .ok b) : ∃ bs, allMap f l = .ok bs := by
  induction l with
  | nil => exact ⟨[], rfl⟩
  | cons a t ih =>
    obtain ⟨b, hb⟩ := h a (List.mem_cons_self a t)
    obtain ⟨bs, hbs⟩ := ih (fun y hy => h y (List.mem_cons_of_mem a hy))
    exact ⟨b :: bs, by rw [allMap, hb, hbs]⟩

/-- C8: when `input.paths` contains a path that does not exist on the
filesystem, `parse` never resolves; and provided the external RAML
parser itself does not fail, the rejection carries the not-found
condition. -/
theorem parse_missing_path_rejects (fsys : FS) (rp : FsPath → Except JsErr Node)
    (pcfg : ParseCfg) (lc : String → String → Int) (p : FsPath)
    (hp : p ∈ pcfg.paths) (hmiss : existsSync fsys p = false) :
    (∀ docs, parseModel fsys rp pcfg lc ≠ .ok docs) ∧
    ((∀ q, ∃ d, rp q = .ok d) → parseModel fsys rp pcfg lc = .error .notFound) := by
  have hpp : parsePath fsys rp pcfg p = .error .notFound := by
    rw [parsePath, listFiles_notFound fsys pcfg.recursive pcfg.fileFilter p hmiss]
  constructor
  · intro docs hok
    obtain ⟨e', he'⟩ :=
      allMap_error_of_mem (parsePath fsys rp pcfg) pcfg.paths p hp .notFound hpp
    rw [parseModel, he'] at hok
    cases hok
  · intro hrp
    have hall : ∀ y ∈ pcfg.paths,
        (∃ b, parsePath fsys rp pcfg y = .ok b) ∨
          parsePath fsys rp pcfg y = .error .notFound := by
      intro y hy
      rw [parsePath]
      cases hlf : listFiles fsys pcfg.recursive pcfg.fileFilter y with
      | error e =>
        right
        rw [listFiles_error_eq fsys pcfg.recursive pcfg.fileFilter y e hlf]
      | ok fls =>
        left
        obtain ⟨bs, hbs⟩ := allMap_ok_of_total rp fls (fun q _ => hrp q)
        exact ⟨bs, hbs⟩
    have := allMap_notFound (parsePath fsys rp pcfg) pcfg.paths hall ⟨p, hp, hpp⟩
    rw [parseModel, this]

/-- Witness for C8: a concrete configuration naming a path absent from a
concrete filesystem; `parse` rejects with the not-found condition. -/
theorem parse_missing_path_rejects_witness :
    (["nope"] ∈ ([[ "nope" ]] : List FsPath)) ∧
    existsSync ⟨[], [], []⟩ ["nope"] = false ∧
    parseModel ⟨[], [], []⟩ (fun _ => .ok (.mk "Doc" "" none none none none none none))
      ⟨[["nope"]], false, fun _ => true, none⟩ (fun _ _ => 0) = .error .notFound := by
  refine ⟨by simp, by rfl, ?_⟩
  exact (parse_missing_path_rejects ⟨[], [], []⟩
      (fun _ => .ok (.mk "Doc" "" none none none none none none))
      ⟨[["nope"]], false, fun _ => true, none⟩ (fun _ _ => 0) ["nope"]
      (by simp) (by rfl)).2
    (fun q => ⟨.mk "Doc" "" none none none none none none, rfl⟩)

theorem preWrite_files (fs : FS) (p : FsPath) : (preWrite fs p).files = fs.files := by
  rw [preWrite]
  by_cases h : existsSync fs p = true
  · rw [if_pos h]
  · rw [if_neg h, mkdirp]

/-- C9: every file write of the `File` output branches goes through
`writeOut`; before the inner `writeFileSync`, every proper ancestor of
the target path exists as a directory (created recursively by `mkdirp`
when the target was absent), and the write itself silently overwrites:
afterwards the target holds exactly the new content while every other
path is untouched. -/
theorem writeOut_creates_parents_and_overwrites (fs : FS) (p : FsPath) (c : String)
    (hwf : fs.wf) :
    writeOut fs p c = writeFileSync (preWrite fs p) p c ∧
    (∀ r ∈ strictPrefixes p, r ∈ (preWrite fs p).dirs) ∧
    lookupFile (writeOut fs p c) p = some c ∧
    (∀ q, q ≠ p → lookupFile (writeOut fs p c) q = lookupFile fs q) := by
  refine ⟨rfl, ?_, ?_, ?_⟩
  · intro r hr
    rw [preWrite]
    by_cases h : existsSync fs p = true
    · rw [if_pos h]
      rw [existsSync, Bool.or_eq_true] at h
      rcases h with h | h
      · exact hwf.2 p (by simpa using h) r hr
      · have h' : p ∈ List.map (fun e => e.1) fs.files := by simpa using h
        rw [List.mem_map] at h'
        obtain ⟨q, hq, hq1⟩ := h'
        exact hwf.1 q hq r (by rwa [hq1])
    · rw [if_neg h, mkdirp]
      exact List.mem_append_left _ hr
  · rw [writeOut, writeFileSync, lookupFile]
    simp
  · intro q hq
    rw [writeOut, writeFileSync, lookupFile, lookupFile]
    simp only [List.find?_cons]
    have : ((p, c).1 == q) = false := by
      simp only [beq_eq_false_iff_ne, ne_eq]
      exact fun hc => hq (hc.symm)
    rw [this, preWrite_files]

/-- Witness for C9: a concrete write into an empty (well-formed)
filesystem. -/
theorem writeOut_creates_parents_and_overwrites_witness :
    (FS.wf ⟨[], [], []⟩) ∧
    (writeOut ⟨[], [], []⟩ ["d", "f"] "x" =
      writeFileSync (preWrite ⟨[], [], []⟩ ["d", "f"]) ["d", "f"] "x" ∧
    (∀ r ∈ strictPrefixes ["d", "f"], r ∈ (preWrite ⟨[], [], []⟩ ["d", "f"]).dirs) ∧
    lookupFile (writeOut ⟨[], [], []⟩ ["d", "f"] "x") ["d", "f"] = some "x" ∧
    (∀ q, q ≠ ["d", "f"] →
      lookupFile (writeOut ⟨[], [], []⟩ ["d", "f"] "x") q =
        lookupFile ⟨[], [], []⟩ q)) := by
  have hwf : FS.wf ⟨[], [], []⟩ := by
    constructor
    · intro q hq; cases hq
    · intro d hd; cases hd
  exact ⟨hwf, writeOut_creates_parents_and_overwrites ⟨[], [], []⟩ ["d", "f"] "x" hwf⟩

theorem optCharLt_irrefl (o : Option Char) : optCharLt o o = false := by
  cases o with
  | none => rfl
  | some c => simp [optCharLt]

theorem fcLe_total : ∀ a b : Node, fcLe a b = true ∨ fcLe b a = true := by
  intro a b
  by_cases h1 : optCharLt (firstChar a.displayName) (firstChar b.displayName) = true
  · left
    simp [fcLe, fcCmp, h1]
  · by_cases h2 : optCharLt (firstChar b.displayName) (firstChar a.displayName) = true
    · right
      simp [fcLe, fcCmp, h2]
    · left
      simp [fcLe, fcCmp, h1, h2]

theorem fcLe_of_key_eq : ∀ a b : Node,
    firstChar b.displayName = firstChar a.displayName → fcLe a b = true := by
  intro a b h
  simp [fcLe, fcCmp, h, optCharLt_irrefl]

theorem sortVersionNode_resources (v : Node) (l : List Node) (hr : v.resources = some l)
    (hne : l ≠ []) : (sortVersionNode v).resources = some (jsSort fcLe l) := by
  rw [sortVersionNode, hr]
  simp [List.isEmpty_iff, hne]

theorem sortVersionNode_uniqueId (v : Node) :
    (sortVersionNode v).uniqueId = v.uniqueId := by
  rw [sortVersionNode]
  cases hr : v.resources with
  | none => rfl
  | some l =>
    by_cases h : l.isEmpty
    · simp [h]
    · simp [h]

/-- C6: in the `OnePerResourceVersioning` branch, for every document and
every version group in its top-level resources with a non-empty nested
resource collection, that collection is sorted — before any file is
written — ascending by the first character of `displayName` (adjacent
elements compare non-positively under the first-character comparator),
as a permutation of the original, and elements whose first characters
tie keep their relative order (every first-character class is filtered
unchanged). -/
theorem versioning_sorts_by_first_char (it v : Node) (l : List Node)
    (_hv : v ∈ it.resources.getD []) (hr : v.resources = some l) (hne : l ≠ []) :
    (∀ (nj : FsPath → Node → String) (tmpl : FsPath) (filt : String → String)
      (opath : FsPath) (ext : String) (home : Option FsPath) (fs : FS),
      versioningDoc nj tmpl filt opath ext home fs it =
        versioningWrites nj tmpl filt opath ext home fs (sortVersions it)) ∧
    (sortVersions it).resources = some ((it.resources.getD []).map sortVersionNode) ∧
    (sortVersionNode v).resources = some (jsSort fcLe l) ∧
    (jsSort fcLe l).Perm l ∧
    (jsSort fcLe l).Chain' (fun a b => fcLe a b = true) ∧
    (∀ k : Option Char,
      (jsSort fcLe l).filter (fun x => firstChar x.displayName = k) =
        l.filter (fun x => firstChar x.displayName = k)) := by
  refine ⟨fun nj tmpl filt opath ext home fs => rfl, by simp [sortVersions],
    sortVersionNode_resources v l hr hne, jsSort_perm fcLe l,
    jsSort_chain' fcLe fcLe_total l, ?_⟩
  intro k
  exact jsSort_filter_key fcLe (fun x => firstChar x.displayName)
    (fun a b hb => fcLe_of_key_eq a b hb) l k

/-- Witness for C6: a concrete document with one version group holding
two endpoints whose display names start with `'b'` and `'a'`. -/
theorem versioning_sorts_by_first_char_witness :
    (Node.mk "V" "v1" none none
        (some [.mk "b1" "" none none none none none none,
               .mk "a1" "" none none none none none none]) none none none ∈
      (Node.mk "Doc" "" none none
        (some [.mk "V" "v1" none none
          (some [.mk "b1" "" none none none none none none,
                 .mk "a1" "" none none none none none none]) none none none])
        none none none : Node).resources.getD []) ∧
    ((Node.mk "V" "v1" none none
        (some [.mk "b1" "" none none none none none none,
               .mk "a1" "" none none none none none none]) none none none : Node).resources =
      some [.mk "b1" "" none none none none none none,
            .mk "a1" "" none none none none none none]) ∧
    ([Node.mk "b1" "" none none none none none none,
      Node.mk "a1" "" none none none none none none] ≠ []) ∧
    ((sortVersionNode (.mk "V" "v1" none none
        (some [.mk "b1" "" none none none none none none,
               .mk "a1" "" none none none none none none]) none none none)).resources =
      some (jsSort fcLe [.mk "b1" "" none none none none none none,
                         .mk "a1" "" none none none none none none]) ∧
    (jsSort fcLe [Node.mk "b1" "" none none none none none none,
                  Node.mk "a1" "" none none none none none none]).Perm
      [.mk "b1" "" none none none none none none,
       .mk "a1" "" none none none none none none] ∧
    (jsSort fcLe [Node.mk "b1" "" none none none none none none,
                  Node.mk "a1" "" none none none none none none]).Chain'
      (fun a b => fcLe a b = true)) := by
  have h := versioning_sorts_by_first_char
    (.mk "Doc" "" none none
      (some [.mk "V" "v1" none none
        (some [.mk "b1" "" none none none none none none,
               .mk "a1" "" none none none none none none]) none none none])
      none none none)
    (.mk "V" "v1" none none
      (some [.mk "b1" "" none none none none none none,
             .mk "a1" "" none none none none none none]) none none none)
    [.mk "b1" "" none none none none none none,
     .mk "a1" "" none none none none none none]
    (by simp [Node.resources]) (by rfl) (by simp)
  exact ⟨by simp [Node.resources], by rfl, by simp,
    h.2.2.1, h.2.2.2.1, h.2.2.2.2.1⟩

theorem preWrite_log (fs : FS) (p : FsPath) : (preWrite fs p).log = fs.log := by
  rw [preWrite]
  by_cases h : existsSync fs p = true
  · rw [if_pos h]
  · rw [if_neg h, mkdirp]

theorem writeOut_log (fs : FS) (p : FsPath) (c : String) :
    (writeOut fs p c).log = fs.log ++ [(p, c)] := by
  rw [writeOut, writeFileSync, preWrite_log]

theorem epLoop_log (nj : FsPath → Node → String) (tmpl : FsPath) (filt : String → String)
    (opath : FsPath) (ext : String) (vid : String) (rs : List Node) :
    ∀ (fs : FS) (it : Node),
      (epLoop nj tmpl filt opath ext vid rs fs it).1.log =
        fs.log ++ rs.map (fun e => (opath ++ [e.displayName ++ "_" ++ vid ++ ext],
          filt (nj tmpl (it.setResources (some [e]))))) := by
  induction rs with
  | nil => intro fs it; simp [epLoop]
  | cons res rest ih =>
    intro fs it
    rw [epLoop, ih, writeOut_log]
    simp

theorem epLoop_doc (nj : FsPath → Node → String) (tmpl : FsPath) (filt : String → String)
    (opath : FsPath) (ext : String) (vid : String) (rs : List Node) :
    ∀ (fs : FS) (it : Node),
      (epLoop nj tmpl filt opath ext vid rs fs it).2 =
        rs.foldl (fun acc e => acc.setResources (some [e])) it := by
  induction rs with
  | nil => intro fs it; rfl
  | cons res rest ih =>
    intro fs it
    rw [epLoop, ih, List.foldl_cons]

theorem perResLoop_doc (nj : FsPath → Node → String) (tmpl : FsPath) (filt : String → String)
    (opath : FsPath) (ext : String) (rs : List Node) :
    ∀ (fs : FS) (it : Node),
      (perResLoop nj tmpl filt opath ext rs fs it).2 =
        rs.foldl (fun acc e => acc.setResources (some [e])) it := by
  induction rs with
  | nil => intro fs it; rfl
  | cons res rest ih =>
    intro fs it
    rw [perResLoop, ih, List.foldl_cons]

theorem foldl_setResources (rs : List Node) : ∀ (it e : Node),
    rs.getLast? = some e →
    rs.foldl (fun acc x => acc.setResources (some [x])) it =
      it.setResources (some [e]) := by
  induction rs with
  | nil => intro it e h; cases h
  | cons res rest ih =>
    intro it e h
    cases rest with
    | nil =>
      simp only [List.getLast?_singleton, Option.some.injEq] at h
      subst h
      rfl
    | cons b t =>
      rw [List.getLast?_cons_cons] at h
      rw [List.foldl_cons, ih (it.setResources (some [res])) e h,
        Node.setResources_setResources]

theorem verLoop_doc (nj : FsPath → Node → String) (tmpl : FsPath) (filt : String → String)
    (opath : FsPath) (ext : String) (vs : List Node) :
    ∀ (fs : FS) (it : Node),
      (verLoop nj tmpl filt opath ext vs fs it).2 =
        (vs.flatMap (fun v => v.resources.getD [])).foldl
          (fun acc e => acc.setResources (some [e])) it := by
  induction vs with
  | nil => intro fs it; rfl
  | cons v rest ih =>
    intro fs it
    rw [verLoop, ih, epLoop_doc, List.flatMap_cons, List.foldl_append]

/-- C10: in the `OnePerResource` and `OnePerResourceVersioning` branches
the dispatcher renders each per-resource page by assigning the
document's `resources` field to a one-element array and never restores
it.  After the per-document branch body, the document's `resources`
field is the singleton holding the last resource rendered for it — the
last top-level resource in the first branch, the last endpoint in
traversal order over the (sorted) version groups in the second — so a
document whose original resource list had two or more elements no
longer holds its original list. -/
theorem perResource_branches_mutate_resources :
    (∀ (nj : FsPath → Node → String) (tmpl : FsPath) (filt : String → String)
      (opath : FsPath) (ext : String) (fs : FS) (it : Node) (l : List Node)
      (_hrs : it.resources = some l) (hne : l ≠ []),
      (onePerResourceDoc nj tmpl filt opath ext fs it).2 =
        it.setResources (some [l.getLast hne]) ∧
      (2 ≤ l.length →
        (onePerResourceDoc nj tmpl filt opath ext fs it).2.resources ≠ some l)) ∧
    (∀ (nj : FsPath → Node → String) (tmpl : FsPath) (filt : String → String)
      (opath : FsPath) (ext : String) (home : Option FsPath) (fs : FS) (it : Node)
      (eps : List Node)
      (_heps : ((sortVersions it).resources.getD []).flatMap
        (fun v => v.resources.getD []) = eps) (hne : eps ≠ []),
      (versioningDoc nj tmpl filt opath ext home fs it).2 =
        it.setResources (some [eps.getLast hne])) := by
  constructor
  · intro nj tmpl filt opath ext fs it l hrs hne
    have h1 : (onePerResourceDoc nj tmpl filt opath ext fs it).2 =
        it.setResources (some [l.getLast hne]) := by
      rw [onePerResourceDoc, perResLoop_doc, hrs, Option.getD_some]
      exact foldl_setResources l it (l.getLast hne) (List.getLast?_eq_getLast l hne)
    refine ⟨h1, ?_⟩
    intro hlen hcontra
    rw [h1, Node.setResources_resources] at hcontra
    have := congrArg List.length (Option.some.inj hcontra)
    simp at this
    omega
  · intro nj tmpl filt opath ext home fs it eps heps hne
    rw [versioningDoc, versioningWrites, verLoop_doc, heps,
      foldl_setResources _ _ _ (List.getLast?_eq_getLast _ hne),
      sortVersions, Node.setResources_setResources]

/-- Witness for C10 at concrete documents: a two-resource document in
the first branch and a one-version two-endpoint document in the second. -/
theorem perResource_branches_mutate_resources_witness :
    ((Node.mk "D" "" none none
        (some [.mk "r1" "" none none none none none none,
               .mk "r2" "" none none none none none none]) none none none : Node).resources =
      some [.mk "r1" "" none none none none none none,
            .mk "r2" "" none none none none none none]) ∧
    ([Node.mk "r1" "" none none none none none none,
      Node.mk "r2" "" none none none none none none] ≠ []) ∧
    ((onePerResourceDoc (fun _ _ => "s") ["t"] (fun s => s) ["o"] ".md" ⟨[], [], []⟩
        (.mk "D" "" none none
          (some [.mk "r1" "" none none none none none none,
                 .mk "r2" "" none none none none none none]) none none none)).2 =
      (Node.mk "D" "" none none
        (some [.mk "r1" "" none none none none none none,
               .mk "r2" "" none none none none none none]) none none none).setResources
        (some [.mk "r2" "" none none none none none none])) ∧
    ((onePerResourceDoc (fun _ _ => "s") ["t"] (fun s => s) ["o"] ".md" ⟨[], [], []⟩
        (.mk "D" "" none none
          (some [.mk "r1" "" none none none none none none,
                 .mk "r2" "" none none none none none none]) none none none)).2.resources ≠
      some [.mk "r1" "" none none none none none none,
            .mk "r2" "" none none none none none none]) ∧
    (((sortVersions (.mk "D" "" none none
        (some [.mk "V" "v1" none none
          (some [.mk "e1" "" none none none none none none,
                 .mk "e2" "" none none none none none none]) none none none])
        none none none)).resources.getD []).flatMap (fun v => v.resources.getD []) =
      jsSort fcLe [.mk "e1" "" none none none none none none,
                   .mk "e2" "" none none none none none none]) ∧
    (jsSort fcLe [Node.mk "e1" "" none none none none none none,
                  Node.mk "e2" "" none none none none none none] ≠ []) ∧
    (∃ e, (versioningDoc (fun _ _ => "s") ["t"] (fun s => s) ["o"] ".md" none ⟨[], [], []⟩
        (.mk "D" "" none none
          (some [.mk "V" "v1" none none
            (some [.mk "e1" "" none none none none none none,
                   .mk "e2" "" none none none none none none]) none none none])
          none none none)).2 =
      (Node.mk "D" "" none none
        (some [.mk "V" "v1" none none
          (some [.mk "e1" "" none none none none none none,
                 .mk "e2" "" none none none none none none]) none none none])
        none none none).setResources (some [e])) := by
  have hA := perResource_branches_mutate_resources.1 (fun _ _ => "s") ["t"] (fun s => s)
    ["o"] ".md" ⟨[], [], []⟩
    (.mk "D" "" none none
      (some [.mk "r1" "" none none none none none none,
             .mk "r2" "" none none none none none none]) none none none)
    [.mk "r1" "" none none none none none none,
     .mk "r2" "" none none none none none none] rfl (by simp)
  have hlen2 : (jsSort fcLe [Node.mk "e1" "" none none none none none none,
      Node.mk "e2" "" none none none none none none]).length = 2 :=
    (jsSort_perm fcLe _).length_eq
  have hne2 : jsSort fcLe [Node.mk "e1" "" none none none none none none,
      Node.mk "e2" "" none none none none none none] ≠ [] := by
    intro hc
    rw [hc] at hlen2
    cases hlen2
  have hB := perResource_branches_mutate_resources.2 (fun _ _ => "s") ["t"] (fun s => s)
    ["o"] ".md" none ⟨[], [], []⟩
    (.mk "D" "" none none
      (some [.mk "V" "v1" none none
        (some [.mk "e1" "" none none none none none none,
               .mk "e2" "" none none none none none none]) none none none])
      none none none)
    (jsSort fcLe [.mk "e1" "" none none none none none none,
                  .mk "e2" "" none none none none none none]) rfl hne2
  refine ⟨rfl, by simp, ?_, hA.2 (by simp), rfl, hne2, ⟨_, hB⟩⟩
  have hg : [Node.mk "r1" "" none none none none none none,
      Node.mk "r2" "" none none none none none none].getLast (by simp) =
      .mk "r2" "" none none none none none none := rfl
  rw [hA.1, hg]

/-- C5: under `OnePerResourceVersioning` with one document containing
one version group with uniqueId `"v1"` and nested endpoints `[E1, E2]`,
`render` appends to the write log exactly: `Home<extension>` (only when
a home template is configured, rendered with the full — version-sorted —
document as context) and, for each of the two endpoints exactly once (in
the sorted order, a permutation of `[E1, E2]`), the file
`<displayName>_v1<extension>` rendered with the document whose resource
context is limited to that single endpoint. -/
theorem versioning_writes_exact_files
    (nj : FsPath → Node → String) (tmpl : FsPath) (cf : Option (String → Option String))
    (opath : FsPath) (ext : String) (home : Option FsPath) (fs : FS)
    (doc V E1 E2 : Node)
    (hdoc : doc.resources = some [V]) (hV : V.resources = some [E1, E2])
    (hid : V.uniqueId = "v1") :
    ∃ l : List Node, l.Perm [E1, E2] ∧
      (renderCore nj tmpl cf .File .OnePerResourceVersioning opath ext home fs
        [doc]).2.2.1.log =
        fs.log ++
          (match home with
            | none => []
            | some h => [(opath ++ ["Home" ++ ext],
                applyFilter cf (nj h (sortVersions doc)))]) ++
          l.map (fun e => (opath ++ [e.displayName ++ "_" ++ "v1" ++ ext],
            applyFilter cf (nj tmpl (doc.setResources (some [e]))))) := by
  refine ⟨jsSort fcLe [E1, E2], jsSort_perm fcLe [E1, E2], ?_⟩
  have h2 : sortVersions doc = doc.setResources (some [sortVersionNode V]) := by
    rw [sortVersions, hdoc]
    rfl
  have h3 : (sortVersionNode V).resources = some (jsSort fcLe [E1, E2]) :=
    sortVersionNode_resources V [E1, E2] hV (by simp)
  have h3u : (sortVersionNode V).uniqueId = "v1" :=
    (sortVersionNode_uniqueId V).trans hid
  have h0 : (renderCore nj tmpl cf .File .OnePerResourceVersioning opath ext home fs
      [doc]).2.2.1 =
      (versioningDoc nj tmpl (applyFilter cf) opath ext home fs doc).1 := rfl
  rw [h0, versioningDoc, versioningWrites, h2, Node.setResources_resources,
    Option.getD_some]
  simp only [verLoop]
  rw [h3u, h3, Option.getD_some, epLoop_log]
  cases home with
  | none =>
    rw [homeWrite]
    simp [Node.setResources_setResources]
  | some h =>
    rw [homeWrite, writeOut_log]
    simp [Node.setResources_setResources, List.append_assoc]

/-- Witness for C5: one concrete document, one version group `"v1"`,
two endpoints, home template configured. -/
theorem versioning_writes_exact_files_witness :
    ((Node.mk "D" "" none none
        (some [.mk "V" "v1" none none
          (some [.mk "b" "" none none none none none none,
                 .mk "a" "" none none none none none none]) none none none])
        none none none : Node).resources =
      some [.mk "V" "v1" none none
        (some [.mk "b" "" none none none none none none,
               .mk "a" "" none none none none none none]) none none none]) ∧
    ((Node.mk "V" "v1" none none
        (some [.mk "b" "" none none none none none none,
               .mk "a" "" none none none none none none]) none none none : Node).resources =
      some [.mk "b" "" none none none none none none,
            .mk "a" "" none none none none none none]) ∧
    ((Node.mk "V" "v1" none none
        (some [.mk "b" "" none none none none none none,
               .mk "a" "" none none none none none none]) none none none : Node).uniqueId =
      "v1") ∧
    (∃ l : List Node,
      l.Perm [.mk "b" "" none none none none none none,
              .mk "a" "" none none none none none none] ∧
      (renderCore (fun _ _ => "R") ["t"] none .File .OnePerResourceVersioning
        ["o"] ".md" (some ["h"]) ⟨[], [], []⟩
        [.mk "D" "" none none
          (some [.mk "V" "v1" none none
            (some [.mk "b" "" none none none none none none,
                   .mk "a" "" none none none none none none]) none none none])
          none none none]).2.2.1.log =
        (⟨[], [], []⟩ : FS).log ++
          (match (some ["h"] : Option FsPath) with
            | none => []
            | some h => [((["o"] : FsPath) ++ ["Home" ++ ".md"],
                applyFilter none ((fun _ _ => "R") h (sortVersions
                  (.mk "D" "" none none
                    (some [.mk "V" "v1" none none
                      (some [.mk "b" "" none none none none none none,
                             .mk "a" "" none none none none none none])
                      none none none]) none none none))))]) ++
          l.map (fun e => ((["o"] : FsPath) ++ [e.displayName ++ "_" ++ "v1" ++ ".md"],
            applyFilter none ((fun _ _ => "R") ["t"]
              ((Node.mk "D" "" none none
                (some [.mk "V" "v1" none none
                  (some [.mk "b" "" none none none none none none,
                         .mk "a" "" none none none none none none]) none none none])
                none none none).setResources (some [e])))))) := by
  exact ⟨rfl, rfl, rfl,
    versioning_writes_exact_files (fun _ _ => "R") ["t"] none ["o"] ".md"
      (some ["h"]) ⟨[], [], []⟩ _ _ _ _ rfl rfl rfl⟩
